import Mathlib

/-!
Verification of the sectorc bootstrap toolchain against its specification.

Shallow embedding of:
* the stage-0 hex loader (src/unnamed/part_011, the MAP_JIT variant with the
  backtick sentinel; src/stage0/stage0.s),
* the stage-1 Forth VM (src/stage1/forth.s): dictionary, number parser,
  outer interpreter, colon definer, threaded execution,
* the stage-3 C compiler (src/stage3/cc.fth): character reader, symbol
  table, comparison words, FOR-statement lowering, error word FAIL.

Bytes and machine words are modelled as Nat with explicit reduction
mod 2^64 where the hardware wraps; fallible paths return Option.
-/

namespace SectorC

/-! ## Stage 0 loader (src/unnamed/part_011, second variant, `main`) -/

/-- `hex_to_nibble` from the loader: hex digit to 0..15, `none` for the C
version's -1. -/
def hexToNibble (c : Nat) : Option Nat :=
  if 48 ≤ c ∧ c ≤ 57 then some (c - 48)
  else if 65 ≤ c ∧ c ≤ 70 then some (c - 55)
  else if 97 ≤ c ∧ c ≤ 102 then some (c - 87)
  else none

/-- Whitespace test from the loader main loop: space, tab, newline, CR. -/
def isLoaderWs (c : Nat) : Bool :=
  c == 32 || c == 9 || c == 10 || c == 13

/-- CODE_SIZE of the JIT region in the loader (0x4000). -/
def CODE_SIZE : Nat := 16384

/-- Control position inside the loader's read loop: at the top of the loop,
inside a `skip_line` comment, or between the two digits of a pair (first
nibble already read). -/
inductive LMode where
  | top
  | comment
  | afterHi (hi : Nat)
deriving DecidableEq

/-- The loader's main read loop (part_011 second `main`): one constructor
case per byte read.  `none` models the Code-overflow abort (exit 1 before
any execution); `some acc` models reaching execute mode with `acc` stored
in the JIT region.  EOF in any mode triggers execution, matching the `break`
and `skip_line` EOF paths.  A sentinel or comment starter is recognised only
at the top of the loop; as the second character of a pair it merely fails
`hex_to_nibble`, discarding the pair's first digit. -/
def loadLoop : LMode → List Nat → List Nat → Option (List Nat)
  | _, [], acc => some acc
  | .top, c :: rest, acc =>
      if isLoaderWs c then loadLoop .top rest acc
      else if c = 59 ∨ c = 35 then loadLoop .comment rest acc
      else if c = 96 then some acc
      else
        match hexToNibble c with
        | none => loadLoop .top rest acc
        | some hi => loadLoop (.afterHi hi) rest acc
  | .comment, c :: rest, acc =>
      if c = 10 then loadLoop .top rest acc else loadLoop .comment rest acc
  | .afterHi hi, c :: rest, acc =>
      match hexToNibble c with
      | none => loadLoop .top rest acc
      | some lo =>
          if CODE_SIZE ≤ acc.length then none
          else loadLoop .top rest (acc ++ [16 * hi + lo])

/-- Bytes stored in the JIT region for a given stdin byte sequence. -/
def hexLoad (s : List Nat) : Option (List Nat) :=
  loadLoop .top s []

/-- Claim-side definition, following the spec's words: the prefix of the
input up to (excluding) the sentinel byte 0x60. -/
def prefix_until_sentinel (s : List Nat) : List Nat :=
  s.takeWhile (fun c => c ≠ 96)

/-- Claim-side comment/whitespace stripper, following the spec's words:
drop comments from a semicolon or hash through the following newline, and
drop whitespace; the Bool records being inside a comment. -/
def stripCW : Bool → List Nat → List Nat
  | _, [] => []
  | true, c :: r => if c = 10 then stripCW false r else stripCW true r
  | false, c :: r =>
      if c = 59 ∨ c = 35 then stripCW true r
      else if isLoaderWs c then stripCW false r
      else c :: stripCW false r

/-- Claim-side definition, following the spec's words. -/
def strip_comments_and_ws (s : List Nat) : List Nat := stripCW false s

/-- Claim-side pairwise hex decoding; a trailing single digit is discarded
silently, as the spec prescribes. -/
def unhex : List Nat → List Nat
  | d1 :: d2 :: r =>
      (16 * (hexToNibble d1).getD 0 + (hexToNibble d2).getD 0) :: unhex r
  | _ => []

/-- A lexical unit of well-formed loader input: a whitespace byte, a whole
comment (starter byte plus body plus terminating newline), or a complete
two-digit hex pair. -/
inductive HexTok where
  | ws (c : Nat)
  | comment (starter : Nat) (body : List Nat)
  | pair (d1 d2 : Nat)
deriving DecidableEq

/-- Bytes of one unit. -/
def HexTok.render : HexTok → List Nat
  | .ws c => [c]
  | .comment s body => s :: (body ++ [10])
  | .pair d1 d2 => [d1, d2]

/-- Bytes of a unit sequence. -/
def renderToks (ts : List HexTok) : List Nat :=
  (ts.map HexTok.render).flatten

/-- Well-formedness: whitespace units carry a loader whitespace byte,
comments start with a semicolon or hash and contain neither a newline nor
the sentinel, pairs carry two hex digits. -/
def HexTok.wfb : HexTok → Bool
  | .ws c => isLoaderWs c
  | .comment s body =>
      (s == 59 || s == 35) && body.all (fun b => b ≠ 10 && b ≠ 96)
  | .pair d1 d2 => (hexToNibble d1).isSome && (hexToNibble d2).isSome

/-- The bytes encoded by the pair units of a sequence. -/
def pairsOf : List HexTok → List Nat
  | [] => []
  | .pair d1 d2 :: r =>
      (16 * (hexToNibble d1).getD 0 + (hexToNibble d2).getD 0) :: pairsOf r
  | _ :: r => pairsOf r

/-- The hex digit characters of the pair units of a sequence. -/
def hexDigitsOf : List HexTok → List Nat
  | [] => []
  | .pair d1 d2 :: r => d1 :: d2 :: hexDigitsOf r
  | _ :: r => hexDigitsOf r

/-! ## Stage 1 Forth VM (src/stage1/forth.s) -/

/-- F_IMMED from forth.s. -/
def F_IMMED : Nat := 128

/-- F_LENMASK from forth.s. -/
def F_LENMASK : Nat := 31

/-- A dictionary entry: the flags+length byte exactly as stored at offset 8
of the header, the name bytes, and (for colon definitions) the cells of the
parameter field.  The link chain is the list order; the head is LATEST. -/
structure Entry where
  flags : Nat
  name : List Nat
  body : List Nat
deriving DecidableEq

/-- The byte-wise case folding of `find_word`: both sides are OR-ed with
0x20 before comparison. -/
def foldByte (c : Nat) : Nat := c ||| 32

/-- Name comparison of `find_word`: the stored length (flags masked with
F_LENMASK) must equal the sought length, then that many name bytes are
compared under `foldByte`.  There is no hidden-flag test anywhere in
`find_word`. -/
def entryMatches (e : Entry) (w : List Nat) : Bool :=
  (e.flags &&& F_LENMASK == w.length) &&
    ((e.name.take w.length).map foldByte == w.map foldByte)

/-- `find_word`: walk the chain from LATEST, first match wins. -/
def findWord (d : List Entry) (w : List Nat) : Option Entry :=
  d.find? (fun e => entryMatches e w)

/-- Interpreter state: 0 = interpret, 1 = compile (var_STATE). -/
inductive VMState where
  | interpret
  | compile
deriving DecidableEq

/-- `do_COLON`: reads a name, links a new header whose flags byte is just
the (byte-truncated) name length — no HIDDEN bit exists in forth.s — writes
the DOCOL code field, makes the entry LATEST at once, and enters Compile
state.  Returns the new dictionary (head = LATEST) and the new state. -/
def doColon (d : List Entry) (nm : List Nat) : List Entry × VMState :=
  (⟨nm.length % 256, nm, []⟩ :: d, .compile)

/-- The execution-token cell that `;` compiles (code_EXIT's offset),
abstracted as a distinguished cell value. -/
def exitXt : Nat := 0

/-- `do_SEMICOLON`: compile an EXIT cell into the current (latest)
definition and return to Interpret state.  The flags byte is not touched. -/
def doSemicolon (d : List Entry) : List Entry × VMState :=
  match d with
  | [] => ([], .interpret)
  | e :: r => ({ e with body := e.body ++ [exitXt] } :: r, .interpret)

/-- Digit conversion inside `parse_number`: characters at most '9' take the
numeric branch (value c - 48, negative below '0'), all others are OR-ed
with 0x20 and reduced by 87 ('a' - 10). -/
def digitVal (c : Nat) : Int :=
  if c ≤ 57 then (c : Int) - 48 else ((c ||| 32 : Nat) : Int) - 87

/-- 2^64, the wrap modulus of the 64-bit registers. -/
def CELLMOD : Nat := 18446744073709551616

/-- 2^63, the signed boundary. -/
def CELLHALF : Nat := 9223372036854775808

/-- The signed reading of a 64-bit cell. -/
def toSigned (n : Nat) : Int :=
  if n < CELLHALF then (n : Int) else (n : Int) - (CELLMOD : Int)

/-- The digit loop of `parse_number`: accumulate `acc * base + digit`,
wrapping mod 2^64 as the 64-bit `mul`/`add` do; fail on a digit below zero
or at least the base. -/
def parseDigits : List Nat → Nat → Nat → Option Nat
  | [], _, acc => some acc
  | c :: r, base, acc =>
      let d := digitVal c
      if d < 0 then none
      else if (base : Int) ≤ d then none
      else parseDigits r base ((acc * base + d.toNat) % CELLMOD)

/-- `parse_number` from forth.s: an empty token fails; a leading '-' sets
the negate flag and must be followed by at least one character; the rest
are digits in the current BASE; on success the value (NEGated via the
64-bit `neg` when the sign was present) is produced.  There is no base
prefix handling of any kind. -/
def parseNumber (w : List Nat) (base : Nat) : Option Nat :=
  match w with
  | [] => none
  | c :: rest =>
      if c = 45 then
        if rest = [] then none
        else (parseDigits rest base 0).map (fun v => (CELLMOD - v) % CELLMOD)
      else parseDigits w base 0

/-- Claim-side number parser, following the claim's words: an optional
leading base prefix selects hex for a dollar sign, decimal for a hash,
binary for a percent sign, then an optional '-' sign, then digits 0-9/a-z
below the chosen base. -/
def claimDigit (c : Nat) : Option Nat :=
  if 48 ≤ c ∧ c ≤ 57 then some (c - 48)
  else if 97 ≤ c ∧ c ≤ 122 then some (c - 87)
  else none

/-- Claim-side digit run: all characters must be digits below the base. -/
def claimDigits : List Nat → Nat → Nat → Option Nat
  | [], _, acc => some acc
  | c :: r, base, acc =>
      match claimDigit c with
      | none => none
      | some d => if d < base then claimDigits r base (acc * base + d) else none

/-- Claim-side parser with prefixes, following the claim's words. -/
def claimParseNumber (w : List Nat) (base : Nat) : Option Int :=
  let (b, w1) :=
    match w with
    | 36 :: r => (16, r)
    | 35 :: r => (10, r)
    | 37 :: r => (2, r)
    | _ => (base, w)
  match w1 with
  | [] => none
  | 45 :: r => if r = [] then none else (claimDigits r b 0).map (fun v => -(v : Int))
  | _ => (claimDigits w1 b 0).map (fun v => (v : Int))

/-- The corrected clean description of `parse_number`: same sign handling,
and a character is a digit exactly when `digitVal` lands in [0, base). -/
def cleanDigitOk (base c : Nat) : Bool :=
  decide (0 ≤ digitVal c) && decide (digitVal c < (base : Int))

/-- Clean digit run: every character must pass `cleanDigitOk`; the value is
the left fold `acc * base + digit` wrapped mod 2^64. -/
def cleanDigits (w : List Nat) (base : Nat) (acc : Nat) : Option Nat :=
  if w.all (cleanDigitOk base) then
    some (w.foldl (fun a c => (a * base + (digitVal c).toNat) % CELLMOD) acc)
  else none

/-- Clean restatement of the whole of `parse_number`. -/
def cleanParseNumber (w : List Nat) (base : Nat) : Option Nat :=
  match w with
  | [] => none
  | c :: rest =>
      if c = 45 then
        if rest = [] then none
        else (cleanDigits rest base 0).map (fun v => (CELLMOD - v) % CELLMOD)
      else cleanDigits (c :: rest) base 0

/-- Outcome of one `quit_loop` iteration on a non-empty word. -/
inductive Outcome where
  | executeWord (e : Entry)
  | compileWord (e : Entry)
  | pushLit (v : Nat)
  | compileLit (v : Nat)
  | diagContinue (msg : List Nat)
deriving DecidableEq

/-- One iteration of `quit_loop` (forth.s lines 759-819) on the word `w`:
look the word up; a found word executes when IMMEDIATE or when
interpreting, otherwise its token is compiled; an unfound word is tried as
a number, pushed or compiled as a literal by state; otherwise
`word_not_found` writes the two bytes "?\n" to stderr and unconditionally
branches back to `quit_loop` — in Compile state just as in Interpret
state. -/
def quitStep (d : List Entry) (base : Nat) (st : VMState) (w : List Nat) :
    Outcome :=
  match findWord d w with
  | some e =>
      if e.flags &&& F_IMMED ≠ 0 then .executeWord e
      else if st = .compile then .compileWord e
      else .executeWord e
  | none =>
      match parseNumber w base with
      | some v => if st = .compile then .compileLit v else .pushLit v
      | none => .diagContinue [63, 10]

/-- `do_BYE`: `mov x0, #0; svc SYS_exit` — the only exit path of the VM,
always status 0. -/
def byeExitCode : Nat := 0

/-- One `EMIT` (do_EMIT): append the low byte of the popped cell to
stdout. -/
def emitByte (out : List Nat) (c : Nat) : List Nat := out ++ [c % 256]

/-- `FAIL` from cc.fth: EMIT the four bytes 69 82 82 10 ("ERR\n") and BYE.
The result is the stdout suffix it writes and the process exit status. -/
def failRun : List Nat × Nat :=
  (emitByte (emitByte (emitByte (emitByte [] 69) 82) 82) 10, byeExitCode)

/-- The clean-EOF path of `CC` (cc.fth: `TOK @ 0= IF BYE THEN`): exit via
BYE. -/
def ccEofExitCode : Nat := byeExitCode

/-! ### Threaded execution (DOCOL / EXIT / NEXT, forth.s) -/

/-- An execution token as threaded code sees it: the EXIT primitive, an
ordinary primitive (its net effect on the parameter stack), or a colon
definition holding its compiled thread.  Immediate words and words that
mutate the dictionary are outside this type, matching the claim's
restriction. -/
inductive XT where
  | exit
  | prim (f : List Int → List Int)
  | docol (body : List XT)

mutual

/-- Size measure of a token (number of thread cells in its tree). -/
def XT.size : XT → Nat
  | .exit => 1
  | .prim _ => 1
  | .docol body => 1 + sizeList body

/-- Size of a thread. -/
def sizeList : List XT → Nat
  | [] => 0
  | w :: ws => XT.size w + sizeList ws

end

/-- The inner interpreter: `ip` is the remaining thread (NEXT advances it),
`rs` the return stack of saved IPs (DOCOL pushes, EXIT pops), `ps` the
parameter stack.  An EXIT with an empty return stack models the thread
planted by `execute_word`, whose saved IP is `xt_STOP`: control returns to
`quit_loop` with the parameter stack as the net effect.  Fuel makes the
recursion total; `none` means out of fuel or a malformed thread. -/
def runThread : Nat → List XT → List (List XT) → List Int → Option (List Int)
  | 0, _, _, _ => none
  | _ + 1, [], _, _ => none
  | _ + 1, .exit :: _, [], ps => some ps
  | f + 1, .exit :: _, r :: rs, ps => runThread f r rs ps
  | f + 1, .prim g :: rest, rs, ps => runThread f rest rs (g ps)
  | f + 1, .docol body :: rest, rs, ps => runThread f body (rest :: rs) ps

/-- Top-level execution of one looked-up word in Interpret state
(`execute_word`): primitives apply directly, a colon word enters its thread
through DOCOL with an empty return stack. -/
def runWord (f : Nat) : XT → List Int → Option (List Int)
  | .exit, ps => some ps
  | .prim g, ps => some (g ps)
  | .docol body, ps => runThread f body [] ps

/-- Interpreting a sequence of words one after the other, as `quit_loop`
does when the words are typed directly. -/
def interpSeq (f : Nat) : List XT → List Int → Option (List Int)
  | [], ps => some ps
  | w :: ws, ps =>
      match runWord f w ps with
      | none => none
      | some ps' => interpSeq f ws ps'

mutual

/-- Denotation of a word as a stack function (EXIT inside a thread body is
the identity continuation marker). -/
def denoteWord : XT → List Int → List Int
  | .exit, ps => ps
  | .prim g, ps => g ps
  | .docol body, ps => denoteList body ps

/-- Denotation of a thread. -/
def denoteList : List XT → List Int → List Int
  | [], ps => ps
  | w :: ws, ps => denoteList ws (denoteWord w ps)

end

/-- Well-formed words: primitives, or colon definitions whose thread is a
list of well-formed words followed by the single terminating EXIT that `;`
compiles. -/
inductive XTWf : XT → Prop where
  | prim (g : List Int → List Int) : XTWf (.prim g)
  | docol (ws : List XT) (h : ∀ w ∈ ws, XTWf w) : XTWf (.docol (ws ++ [.exit]))

/-- A well-formed saved IP on the return stack: the suffix of a colon
thread, i.e. well-formed words followed by the terminating EXIT. -/
def ThreadWf (t : List XT) : Prop :=
  ∃ ws, t = ws ++ [XT.exit] ∧ ∀ w ∈ ws, XTWf w

/-- Denotation of the whole return stack: resuming each saved IP in turn. -/
def denoteStack : List (List XT) → List Int → List Int
  | [], ps => ps
  | t :: rs, ps => denoteStack rs (denoteList t ps)

/-- `do_DUP` as a stack function (reading an empty stack would read
adjacent memory in the source; the model leaves it unchanged). -/
def primDUP : List Int → List Int
  | x :: t => x :: x :: t
  | [] => []

/-- `do_STAR` as a stack function. -/
def primSTAR : List Int → List Int
  | a :: b :: t => (b * a) :: t
  | t => t

/-! ## Stage 3 compiler: character reader (cc.fth GETC / UNGETC) -/

/-- State of the compiler's character reader: the two-slot unget buffer
(UNGET-COUNT, UNGET0, UNGET1) and the remaining stdin (KEY yields -1 at
EOF). -/
structure LexSt where
  ungetCount : Nat
  unget0 : Int
  unget1 : Int
  input : List Int
deriving DecidableEq

/-- `KEY` (do_KEY): one byte from stdin or -1 on EOF. -/
def KEY (s : LexSt) : Int × LexSt :=
  match s.input with
  | [] => (-1, s)
  | c :: r => (c, { s with input := r })

/-- `GETC` from cc.fth: drain the unget buffer before reading stdin. -/
def GETC (s : LexSt) : Int × LexSt :=
  if s.ungetCount = 0 then KEY s
  else if s.ungetCount = 1 then (s.unget0, { s with ungetCount := 0 })
  else (s.unget1, { s with ungetCount := 1 })

/-- `UNGETC` from cc.fth, with the parameter stack made explicit: `c` is
the cell on top of the stack and `ps` the rest.  With count 0 or 1 the
character is stored and the count bumped; on any other count the final
DROP discards the loop-scratch copy of the count, so the state is
unchanged and `c` itself stays behind on the parameter stack. -/
def UNGETC (c : Int) (ps : List Int) (s : LexSt) : List Int × LexSt :=
  if s.ungetCount = 0 then (ps, { s with unget0 := c, ungetCount := 1 })
  else if s.ungetCount = 1 then (ps, { s with unget1 := c, ungetCount := 2 })
  else (c :: ps, s)

/-- The results of `n` successive GETCs. -/
def getcRun : Nat → LexSt → List Int
  | 0, _ => []
  | n + 1, s =>
      let (c, s') := GETC s
      c :: getcRun n s'

/-! ## Stage 3 compiler: comparison word `<` (cc.fth line 20) -/

/-- 64-bit wrapped subtraction (do_MINUS) on cells below 2^64. -/
def wsub (a b : Nat) : Nat := (a + (CELLMOD - b % CELLMOD)) % CELLMOD

/-- `NEGATE` from cc.fth: `0 SWAP -`. -/
def forthNegate (a : Nat) : Nat := wsub 0 a

/-- `<` from cc.fth: `- 63 RSHIFT NEGATE` — the wrapped difference's top
bit (do_RSHIFT is a logical shift) negated into all-ones or all-zeros. -/
def forthLess (a b : Nat) : Nat := forthNegate (wsub a b / CELLHALF)

/-- The canonical all-ones true cell. -/
def allOnes : Nat := CELLMOD - 1

/-! ## Stage 3 compiler: symbol table (cc.fth SYM-FIND / PRIMARY) -/

/-- One symbol record: frame offset, type tag (0 int, 1 pointer, 2 array),
array element count, and name bytes.  The list index is the SYM-REC index;
SYM-ADD appends, so index 0 is the first-declared symbol. -/
structure SymRec where
  off : Nat
  ty : Nat
  aux : Nat
  name : List Nat
deriving DecidableEq

/-- `SYM-FIND`: starting from index 0 and counting SYMCOUNT down, return
the first index whose record's stored length byte and name bytes equal the
sought name (STR= compares bytes exactly); -1 when none matches. -/
def symFindFrom : List SymRec → Nat → List Nat → Int
  | [], _, _ => -1
  | r :: rest, i, nm =>
      if r.name = nm then (i : Int) else symFindFrom rest (i + 1) nm

/-- `SYM-FIND` on the whole table. -/
def symFind (tab : List SymRec) (nm : List Nat) : Int :=
  symFindFrom tab 0 nm

/-- Claim-side lookup, following the claim's words: last-declared-first,
the most recent declaration of a name wins.  SYM-ADD appends, so this
scans from the highest index down. -/
def claimSymFind (tab : List SymRec) (nm : List Nat) : Int :=
  match tab.reverse.findIdx? (fun r => r.name = nm) with
  | some i => (tab.length : Int) - 1 - (i : Int)
  | none => -1

/-- The variable branch of `PRIMARY` (cc.fth lines 705-721): an identifier
that is not a call is looked up with SYM-FIND; -1 is a fatal compile error
(FAIL); otherwise the record's offset and type decide the emitted address
computation and the expression category (array gives a pointer rvalue,
else an int or pointer lvalue). -/
def primaryVar (tab : List SymRec) (nm : List Nat) : Option (Nat × Nat) :=
  let i := symFind tab nm
  if i = -1 then none
  else
    match tab[i.toNat]? with
    | none => none
    | some r =>
        if r.ty = 2 then some (r.off, 1)
        else some (r.off, if r.ty = 0 then 2 else 3)

/-! ## Stage 3 compiler: FOR-statement lowering (cc.fth FOR-STMT) -/

/-- A token record as cc.fth stores it (TOK kind, TOKVAL, TOKLEN, IDBUF):
kind 0 is EOF, character codes stand for single-character tokens, 256 and
up are TK_ID/TK_NUM/keywords/two-character operators. -/
structure TokRec where
  kind : Nat
  val : Nat
  len : Nat
  name : List Nat
deriving DecidableEq

/-- The EOF record NEXTTOK and REPLAY-NEXT produce: TOK, TOKVAL and TOKLEN
zeroed, IDBUF left as it was. -/
def zeroTok (t : TokRec) : TokRec :=
  { t with kind := 0, val := 0, len := 0 }

/-- Emitted assembly at event granularity: label definitions, branches,
compare-branch-if-zero, immediate loads, the two RVAL loads, and opaque
instruction text from the abstracted expression/statement compilers. -/
inductive Ev where
  | lbldef (n : Nat)
  | branch (n : Nat)
  | cbz (n : Nat)
  | movImm (n : Nat)
  | ldrW0X0
  | ldrX0X0
  | raw (n : Nat)
deriving DecidableEq

/-- Compiler state at token granularity: the current token record, the
remaining stdin (pre-lexed into records), the token buffer TBUF with its
count and replay index, SRCMODE, the SAVTOK record, the label counter and
the emitted output. -/
structure CState where
  cur : TokRec
  input : List TokRec
  tbufv : List TokRec
  tbidx : Nat
  srcmode : Bool
  savtok : TokRec
  lblcount : Nat
  out : List Ev
deriving DecidableEq

/-- An expression compiler (the EXPRXT indirection of cc.fth): consumes
tokens, emits code and yields the expression's category tag. -/
def ExprC : Type := CState → Option (Nat × CState)

/-- A statement compiler (the STMTXT indirection of cc.fth). -/
def StmtC : Type := CState → Option CState

/-- `REPLAY-NEXT`: at the end of the buffer produce the EOF record,
otherwise copy record TBIDX into the current token and advance TBIDX. -/
def replayNext (st : CState) : CState :=
  if st.tbidx = st.tbufv.length then { st with cur := zeroTok st.cur }
  else
    match st.tbufv[st.tbidx]? with
    | some r => { st with cur := r, tbidx := st.tbidx + 1 }
    | none => { st with cur := zeroTok st.cur }

/-- `NEXTTOK` at token granularity: Replay mode draws from the token
buffer; Stdin mode draws the next record from the pre-lexed input, or the
EOF record when stdin is exhausted. -/
def NEXTTOK (st : CState) : CState :=
  if st.srcmode then replayNext st
  else
    match st.input with
    | [] => { st with cur := zeroTok st.cur }
    | t :: r => { st with cur := t, input := r }

/-- `EXPECT0`: the current token must have the given kind, else FAIL. -/
def EXPECT0 (k : Nat) (st : CState) : Option CState :=
  if st.cur.kind = k then some st else none

/-- `EXPECT`: EXPECT0 then NEXTTOK. -/
def EXPECT (k : Nat) (st : CState) : Option CState :=
  (EXPECT0 k st).map NEXTTOK

/-- Append one output event (the GEN- words emit text; the event carries
the operand). -/
def emitEv (e : Ev) (st : CState) : CState :=
  { st with out := st.out ++ [e] }

/-- `NEWLBL`: return the counter value and increment it. -/
def NEWLBL (st : CState) : Nat × CState :=
  (st.lblcount, { st with lblcount := st.lblcount + 1 })

/-- `GEN-B`. -/
def genB (n : Nat) (st : CState) : CState := emitEv (.branch n) st

/-- `GEN-CBZ`. -/
def genCbz (n : Nat) (st : CState) : CState := emitEv (.cbz n) st

/-- `.LBLDEF`. -/
def lbldefEv (n : Nat) (st : CState) : CState := emitEv (.lbldef n) st

/-- `GEN-MOV-W0-IMM`. -/
def genMovW0Imm (n : Nat) (st : CState) : CState := emitEv (.movImm n) st

/-- `RVAL` (cc.fth lines 630-639): lvalues are loaded with the width of
their base (pointer bases via an x-register load, int bases via a
w-register load); rvalues pass through. -/
def RVAL (ty : Nat) (st : CState) : Nat × CState :=
  if ty &&& 2 ≠ 0 then
    if ty &&& 1 ≠ 0 then (1, emitEv .ldrX0X0 st)
    else (0, emitEv .ldrW0X0 st)
  else (ty, st)

/-- `WANT-INT`: RVAL, then the category must be the int rvalue. -/
def wantInt (ty : Nat) (st : CState) : Option CState :=
  let p := RVAL ty st
  if p.1 = 0 then some p.2 else none

/-- `TBUF-RESET`. -/
def tbufReset (st : CState) : CState :=
  { st with tbufv := [], tbidx := 0 }

/-- The update-clause buffering loop of FOR-STMT (cc.fth lines 1049-1057)
in Stdin mode: stop on the first token of kind 41 (a closing parenthesis,
with no pairing of nested parentheses); otherwise TBUF-APPEND the current
token — a fatal compile error once the buffer already holds 40 records —
and NEXTTOK.  Once stdin is exhausted the lexer keeps yielding EOF records,
which the loop appends until the buffer overflows. -/
def bufferLoop (input : List TokRec) (cur : TokRec) (tbuf : List TokRec) :
    Option (List TokRec × TokRec × List TokRec) :=
  if cur.kind = 41 then some (tbuf, cur, input)
  else if 40 ≤ tbuf.length then none
  else
    match input with
    | t :: rest => bufferLoop rest t (tbuf ++ [cur])
    | [] => bufferLoop [] (zeroTok cur) (tbuf ++ [cur])
termination_by (input.length, 40 - tbuf.length)
decreasing_by
  · apply Prod.Lex.left
    simp
  · apply Prod.Lex.right
    simp
    omega

/-- `REPLAY-EXPR` (cc.fth lines 946-954): save the current token record,
enter Replay mode at buffer index 0, fetch the first buffered token,
compile one expression (rvalue-ised by RVAL, category dropped) unless the
buffer yields the EOF record at once, then leave Replay mode and restore
the saved token record. -/
def replayExpr (exprC : ExprC) (st : CState) : Option CState :=
  let st1 := { st with savtok := st.cur }
  let st2 := { st1 with srcmode := true, tbidx := 0 }
  let st3 := NEXTTOK st2
  let after : Option CState :=
    if st3.cur.kind ≠ 0 then
      match exprC st3 with
      | none => none
      | some p => some (RVAL p.1 p.2).2
    else some st3
  match after with
  | none => none
  | some st5 => some { st5 with srcmode := false, cur := st5.savtok }

/-- `FOR-STMT` (cc.fth lines 1022-1068), with the expression and statement
compilers abstracted through their EXPRXT/STMTXT indirections.  The two
NEWLBL results live on the compile-time parameter stack in the source;
the OVER/DUP/SWAP-DROP shuffles are rendered as direct uses of the two
bound labels. -/
def forStmt (exprC : ExprC) (stmtC : StmtC) (st : CState) : Option CState := do
  let st ← EXPECT 263 st
  let st ← EXPECT 40 st
  let st ←
    if st.cur.kind = 59 then EXPECT 59 st
    else do
      let p ← exprC st
      EXPECT 59 (RVAL p.1 p.2).2
  let q1 := NEWLBL st
  let top := q1.1
  let q2 := NEWLBL q1.2
  let endl := q2.1
  let st := lbldefEv top q2.2
  let st ←
    if st.cur.kind = 59 then EXPECT 59 (genMovW0Imm 1 st)
    else do
      let p ← exprC st
      let st2 ← wantInt p.1 p.2
      EXPECT 59 st2
  let st := genCbz endl st
  let st := tbufReset st
  let b ← bufferLoop st.input st.cur st.tbufv
  let st := { st with tbufv := b.1, cur := b.2.1, input := b.2.2 }
  let st ← EXPECT 41 st
  let st ← stmtC st
  let st ← if st.tbufv.length ≠ 0 then replayExpr exprC st else pure st
  let st := genB top st
  pure (lbldefEv endl st)

/-- Claim-side buffering, following the amended claim's words: the buffered
tokens are the maximal prefix of the token stream (current token first) in
which no closing-parenthesis token occurs; the clause fails when no closing
parenthesis follows at all, or when more than 40 tokens would be
buffered. -/
def specBuffer (cur : TokRec) (input : List TokRec) :
    Option (List TokRec × TokRec × List TokRec) :=
  let pre := (cur :: input).takeWhile (fun t => t.kind ≠ 41)
  match (cur :: input).dropWhile (fun t => t.kind ≠ 41) with
  | [] => none
  | c :: rest => if pre.length ≤ 40 then some (pre, c, rest) else none

/-- Claim-side FOR lowering, following the amended claim's words, phase by
phase: the init expression if present; the top label; the condition, or a
load of constant 1 when absent; a compare-branch-if-zero to the end label;
the update clause buffered up to the first closing-parenthesis token (at
most 40 records); the body; a replay of the buffered tokens as one
discarded expression exactly when the buffer is non-empty; a branch to top;
the end label. -/
def forStmtSpec (exprC : ExprC) (stmtC : StmtC) (st : CState) :
    Option CState := do
  let st ← EXPECT 263 st
  let st ← EXPECT 40 st
  let st ←
    if st.cur.kind = 59 then EXPECT 59 st
    else do
      let p ← exprC st
      EXPECT 59 (RVAL p.1 p.2).2
  let top := st.lblcount
  let endl := st.lblcount + 1
  let st := { st with lblcount := st.lblcount + 2 }
  let st := lbldefEv top st
  let st ←
    if st.cur.kind = 59 then EXPECT 59 (genMovW0Imm 1 st)
    else do
      let p ← exprC st
      let st2 ← wantInt p.1 p.2
      EXPECT 59 st2
  let st := genCbz endl st
  let st := { st with tbufv := [], tbidx := 0 }
  let b ← specBuffer st.cur st.input
  let st := { st with tbufv := b.1, cur := b.2.1, input := b.2.2 }
  let st ← EXPECT 41 st
  let st ← stmtC st
  let st ← if st.tbufv.length ≠ 0 then replayExpr exprC st else pure st
  let st := genB top st
  pure (lbldefEv endl st)

/-- Claim-side reading of the original (unamended) claim's buffering: all
tokens of the update clause up to the matching closing parenthesis,
tracking nesting depth. -/
def matchedUpdate : List TokRec → Nat → List TokRec →
    Option (List TokRec × List TokRec)
  | [], _, _ => none
  | t :: rest, depth, acc =>
      if t.kind = 41 then
        if depth = 0 then some (acc, rest)
        else matchedUpdate rest (depth - 1) (acc ++ [t])
      else if t.kind = 40 then matchedUpdate rest (depth + 1) (acc ++ [t])
      else matchedUpdate rest depth (acc ++ [t])

/-! # Theorems -/

/-! ## C1: loader hex invariance -/

theorem hexToNibble_char {c h : Nat} (hc : hexToNibble c = some h) :
    isLoaderWs c = false ∧ c ≠ 59 ∧ c ≠ 35 ∧ c ≠ 96 ∧ c ≠ 10 := by
  have hr : (48 ≤ c ∧ c ≤ 57) ∨ (65 ≤ c ∧ c ≤ 70) ∨ (97 ≤ c ∧ c ≤ 102) := by
    by_contra hn
    push_neg at hn
    unfold hexToNibble at hc
    have h1 : ¬ (48 ≤ c ∧ c ≤ 57) := by omega
    have h2 : ¬ (65 ≤ c ∧ c ≤ 70) := by omega
    have h3 : ¬ (97 ≤ c ∧ c ≤ 102) := by omega
    rw [if_neg h1, if_neg h2, if_neg h3] at hc
    exact Option.noConfusion hc
  have hw : isLoaderWs c = false := by
    simp only [isLoaderWs, Bool.or_eq_false_iff, beq_eq_false_iff_ne, ne_eq]
    omega
  exact ⟨hw, by omega, by omega, by omega, by omega⟩

theorem loadLoop_ws {c : Nat} (hc : isLoaderWs c = true) (rest acc) :
    loadLoop .top (c :: rest) acc = loadLoop .top rest acc := by
  simp [loadLoop, hc]

theorem loadLoop_commentStart {c : Nat} (hc : c = 59 ∨ c = 35) (rest acc) :
    loadLoop .top (c :: rest) acc = loadLoop .comment rest acc := by
  have hw : isLoaderWs c = false := by
    rcases hc with h | h <;> subst h <;> decide
  simp [loadLoop, hw, hc]

theorem loadLoop_pair {d1 d2 n1 n2 : Nat} (h1 : hexToNibble d1 = some n1)
    (h2 : hexToNibble d2 = some n2) (rest acc)
    (hcap : acc.length < CODE_SIZE) :
    loadLoop .top (d1 :: d2 :: rest) acc =
      loadLoop .top rest (acc ++ [16 * n1 + n2]) := by
  obtain ⟨hw1, ha1, hb1, hc1, _⟩ := hexToNibble_char h1
  have hno : ¬ (d1 = 59 ∨ d1 = 35) := by omega
  have hcap' : ¬ CODE_SIZE ≤ acc.length := by omega
  simp [loadLoop, hw1, hno, hc1, h1, h2, hcap']

theorem loadLoop_comment_body (body : List Nat) (hb : ∀ b ∈ body, b ≠ 10) :
    ∀ rest acc, loadLoop .comment (body ++ 10 :: rest) acc =
      loadLoop .top rest acc := by
  induction body with
  | nil => intro rest acc; simp [loadLoop]
  | cons b bs ih =>
      intro rest acc
      have hb1 : b ≠ 10 := hb b (by simp)
      have hbs : ∀ x ∈ bs, x ≠ 10 := fun x hx => hb x (by simp [hx])
      rw [List.cons_append,
        show loadLoop .comment (b :: (bs ++ 10 :: rest)) acc =
          loadLoop .comment (bs ++ 10 :: rest) acc by simp [loadLoop, hb1]]
      exact ih hbs rest acc

theorem renderToks_cons (t : HexTok) (ts : List HexTok) :
    renderToks (t :: ts) = t.render ++ renderToks ts := by
  simp [renderToks]

theorem wfb_head {t : HexTok} {ts : List HexTok}
    (h : (t :: ts).all HexTok.wfb = true) : t.wfb = true :=
  List.all_eq_true.mp h t (by simp)

theorem wfb_tail {t : HexTok} {ts : List HexTok}
    (h : (t :: ts).all HexTok.wfb = true) : ts.all HexTok.wfb = true := by
  refine List.all_eq_true.mpr fun x hx => ?_
  exact List.all_eq_true.mp h x (by simp [hx])

theorem wfb_comment {s : Nat} {body : List Nat}
    (h : HexTok.wfb (.comment s body) = true) :
    (s = 59 ∨ s = 35) ∧ ∀ b ∈ body, b ≠ 10 ∧ b ≠ 96 := by
  simp only [HexTok.wfb, Bool.and_eq_true, Bool.or_eq_true, beq_iff_eq,
    List.all_eq_true] at h
  refine ⟨h.1, fun b hb => ?_⟩
  have := h.2 b hb
  simp only [Bool.and_eq_true, bne_iff_ne, ne_eq, decide_eq_true_eq] at this
  exact ⟨this.1, this.2⟩

theorem wfb_pair {d1 d2 : Nat} (h : HexTok.wfb (.pair d1 d2) = true) :
    (∃ n1, hexToNibble d1 = some n1) ∧ ∃ n2, hexToNibble d2 = some n2 := by
  simp only [HexTok.wfb, Bool.and_eq_true, Option.isSome_iff_exists] at h
  exact h

theorem loadLoop_render (ts : List HexTok) (h : ts.all HexTok.wfb = true) :
    ∀ rest acc, acc.length + (pairsOf ts).length ≤ CODE_SIZE →
      loadLoop .top (renderToks ts ++ rest) acc =
        loadLoop .top rest (acc ++ pairsOf ts) := by
  induction ts with
  | nil => intro rest acc _; simp [renderToks, pairsOf]
  | cons t ts ih =>
      intro rest acc hlen
      have hwt := wfb_head h
      have hwts := wfb_tail h
      rw [renderToks_cons, List.append_assoc]
      cases t with
      | ws c =>
          have hc : isLoaderWs c = true := hwt
          have hre : HexTok.render (.ws c) ++ (renderToks ts ++ rest) =
              c :: (renderToks ts ++ rest) := by simp [HexTok.render]
          rw [hre, loadLoop_ws hc]
          exact ih hwts rest acc hlen
      | comment s body =>
          obtain ⟨hs, hbody⟩ := wfb_comment hwt
          have hno10 : ∀ b ∈ body, b ≠ 10 := fun b hb => (hbody b hb).1
          have hre : HexTok.render (.comment s body) ++ (renderToks ts ++ rest) =
              s :: (body ++ 10 :: (renderToks ts ++ rest)) := by
            simp [HexTok.render]
          rw [hre, loadLoop_commentStart hs, loadLoop_comment_body body hno10]
          exact ih hwts rest acc hlen
      | pair d1 d2 =>
          obtain ⟨⟨n1, hn1⟩, ⟨n2, hn2⟩⟩ := wfb_pair hwt
          have hpl : pairsOf (HexTok.pair d1 d2 :: ts) =
              (16 * n1 + n2) :: pairsOf ts := by simp [pairsOf, hn1, hn2]
          rw [hpl] at hlen ⊢
          have hre : HexTok.render (.pair d1 d2) ++ (renderToks ts ++ rest) =
              d1 :: d2 :: (renderToks ts ++ rest) := by simp [HexTok.render]
          have hcap : acc.length < CODE_SIZE := by
            simp only [List.length_cons] at hlen; omega
          rw [hre, loadLoop_pair hn1 hn2 _ _ hcap]
          have hlen' : (acc ++ [16 * n1 + n2]).length + (pairsOf ts).length ≤
              CODE_SIZE := by
            simp only [List.length_append, List.length_cons, List.length_nil,
              List.length_cons] at hlen ⊢
            omega
          rw [ih hwts rest (acc ++ [16 * n1 + n2]) hlen']
          simp

theorem renderToks_no96 (ts : List HexTok) (h : ts.all HexTok.wfb = true) :
    ∀ c ∈ renderToks ts, c ≠ 96 := by
  induction ts with
  | nil => simp [renderToks]
  | cons t ts ih =>
      have hwt := wfb_head h
      have hwts := wfb_tail h
      rw [renderToks_cons]
      intro c hc
      rcases List.mem_append.mp hc with hc | hc
      · cases t with
        | ws b =>
            simp only [HexTok.render, List.mem_singleton] at hc
            subst hc
            have hb : isLoaderWs c = true := hwt
            simp only [isLoaderWs, Bool.or_eq_true, beq_iff_eq] at hb
            rcases hb with h' | h' | h' | h' <;> omega
        | comment s body =>
            obtain ⟨hs, hbody⟩ := wfb_comment hwt
            simp only [HexTok.render, List.mem_cons, List.mem_append,
              List.mem_singleton] at hc
            rcases hc with hc | hc | hc
            · subst hc; rcases hs with h' | h' <;> omega
            · exact (hbody c hc).2
            · simp only [List.not_mem_nil, or_false] at hc
              subst hc; decide
        | pair d1 d2 =>
            obtain ⟨⟨n1, hn1⟩, ⟨n2, hn2⟩⟩ := wfb_pair hwt
            simp only [HexTok.render, List.mem_cons,
              List.not_mem_nil, or_false] at hc
            rcases hc with hc | hc
            · subst hc; exact (hexToNibble_char hn1).2.2.2.1
            · subst hc; exact (hexToNibble_char hn2).2.2.2.1
      · exact ih hwts c hc

theorem prefix_no96_self (l : List Nat) (h : ∀ c ∈ l, c ≠ 96) :
    prefix_until_sentinel l = l := by
  induction l with
  | nil => rfl
  | cons c r ih =>
      have hc : c ≠ 96 := h c (by simp)
      have hr : ∀ x ∈ r, x ≠ 96 := fun x hx => h x (by simp [hx])
      unfold prefix_until_sentinel at ih ⊢
      rw [List.takeWhile_cons_of_pos (by simpa using hc), ih hr]

theorem prefix_no96_append (l junk : List Nat) (h : ∀ c ∈ l, c ≠ 96) :
    prefix_until_sentinel (l ++ 96 :: junk) = l := by
  induction l with
  | nil =>
      unfold prefix_until_sentinel
      rw [List.nil_append, List.takeWhile_cons_of_neg (by simp)]
  | cons c r ih =>
      have hc : c ≠ 96 := h c (by simp)
      have hr : ∀ x ∈ r, x ≠ 96 := fun x hx => h x (by simp [hx])
      unfold prefix_until_sentinel at ih ⊢
      rw [List.cons_append, List.takeWhile_cons_of_pos (by simpa using hc),
        ih hr]

theorem stripCW_comment (body : List Nat) (hb : ∀ b ∈ body, b ≠ 10) :
    ∀ X, stripCW true (body ++ 10 :: X) = stripCW false X := by
  induction body with
  | nil => intro X; simp [stripCW]
  | cons b bs ih =>
      intro X
      have hb1 : b ≠ 10 := hb b (by simp)
      have hbs : ∀ x ∈ bs, x ≠ 10 := fun x hx => hb x (by simp [hx])
      rw [List.cons_append,
        show stripCW true (b :: (bs ++ 10 :: X)) = stripCW true (bs ++ 10 :: X)
          by simp [stripCW, hb1]]
      exact ih hbs X

theorem stripCW_render (ts : List HexTok) (h : ts.all HexTok.wfb = true) :
    stripCW false (renderToks ts) = hexDigitsOf ts := by
  induction ts with
  | nil => simp [renderToks, hexDigitsOf, stripCW]
  | cons t ts ih =>
      have hwt := wfb_head h
      have hwts := wfb_tail h
      rw [renderToks_cons]
      cases t with
      | ws c =>
          have hc : isLoaderWs c = true := hwt
          have hnc : ¬ (c = 59 ∨ c = 35) := by
            simp only [isLoaderWs, Bool.or_eq_true, beq_iff_eq] at hc
            rcases hc with h' | h' | h' | h' <;> omega
          have hre : HexTok.render (.ws c) ++ renderToks ts =
              c :: renderToks ts := by simp [HexTok.render]
          rw [hre, show stripCW false (c :: renderToks ts) =
                stripCW false (renderToks ts) by simp [stripCW, hnc, hc]]
          exact ih hwts
      | comment s body =>
          obtain ⟨hs, hbody⟩ := wfb_comment hwt
          have hno10 : ∀ b ∈ body, b ≠ 10 := fun b hb => (hbody b hb).1
          have hre : HexTok.render (.comment s body) ++ renderToks ts =
              s :: (body ++ 10 :: renderToks ts) := by simp [HexTok.render]
          rw [hre, show stripCW false (s :: (body ++ 10 :: renderToks ts)) =
                stripCW true (body ++ 10 :: renderToks ts) by
              simp [stripCW, hs],
            stripCW_comment body hno10]
          exact ih hwts
      | pair d1 d2 =>
          obtain ⟨⟨n1, hn1⟩, ⟨n2, hn2⟩⟩ := wfb_pair hwt
          obtain ⟨hw1, ha1, hb1, hc1, _⟩ := hexToNibble_char hn1
          obtain ⟨hw2, ha2, hb2, hc2, _⟩ := hexToNibble_char hn2
          have hno1 : ¬ (d1 = 59 ∨ d1 = 35) := by omega
          have hno2 : ¬ (d2 = 59 ∨ d2 = 35) := by omega
          have hre : HexTok.render (.pair d1 d2) ++ renderToks ts =
              d1 :: d2 :: renderToks ts := by simp [HexTok.render]
          rw [hre, show stripCW false (d1 :: d2 :: renderToks ts) =
                d1 :: d2 :: stripCW false (renderToks ts) by
              simp [stripCW, hno1, hno2, hw1, hw2]]
          rw [ih hwts]
          rfl

theorem unhex_hexDigits (ts : List HexTok) (h : ts.all HexTok.wfb = true) :
    unhex (hexDigitsOf ts) = pairsOf ts := by
  induction ts with
  | nil => rfl
  | cons t ts ih =>
      have hwts := wfb_tail h
      cases t with
      | ws c => simpa [hexDigitsOf, pairsOf] using ih hwts
      | comment s body => simpa [hexDigitsOf, pairsOf] using ih hwts
      | pair d1 d2 =>
          show unhex (d1 :: d2 :: hexDigitsOf ts) = pairsOf (.pair d1 d2 :: ts)
          rw [show unhex (d1 :: d2 :: hexDigitsOf ts) =
            (16 * (hexToNibble d1).getD 0 + (hexToNibble d2).getD 0) ::
              unhex (hexDigitsOf ts) from rfl]
          rw [ih hwts]
          rfl

/-- C1 (amended): for loader input made of whole units — whitespace bytes,
newline-terminated comments free of newline and sentinel bytes, and
complete two-digit hex pairs — followed by the sentinel (or by end of
input), the bytes stored in the JIT region are exactly
unhex(strip_comments_and_ws(prefix_until_sentinel(S))), provided at most
CODE_SIZE bytes get decoded.  Letter case of the digits and whitespace at
pair boundaries are non-semantic.  (The original claim fails in general: a
non-digit byte falling between the two digits of one pair makes the loader
discard that pair's first digit, see the counterexample.) -/
theorem c1_hex_invariance (ts : List HexTok) (junk : List Nat)
    (h : ts.all HexTok.wfb = true)
    (hlen : (pairsOf ts).length ≤ CODE_SIZE) :
    hexLoad (renderToks ts ++ 96 :: junk) =
      some (unhex (strip_comments_and_ws
        (prefix_until_sentinel (renderToks ts ++ 96 :: junk)))) ∧
    hexLoad (renderToks ts) =
      some (unhex (strip_comments_and_ws
        (prefix_until_sentinel (renderToks ts)))) := by
  have hno96 := renderToks_no96 ts h
  have hstrip : unhex (strip_comments_and_ws (renderToks ts)) = pairsOf ts := by
    unfold strip_comments_and_ws
    rw [stripCW_render ts h, unhex_hexDigits ts h]
  constructor
  · rw [prefix_no96_append _ junk hno96, hstrip]
    unfold hexLoad
    rw [loadLoop_render ts h (96 :: junk) [] (by simpa using hlen)]
    simp [loadLoop, isLoaderWs]
  · rw [prefix_no96_self _ hno96, hstrip]
    unfold hexLoad
    have hr := loadLoop_render ts h [] [] (by simpa using hlen)
    rw [List.append_nil] at hr
    rw [hr]
    simp [loadLoop]

/-- C1 witness: the input "; 4\n 42aF" followed by the sentinel and a junk
byte stores exactly the bytes 0x42 0xAF. -/
theorem c1_hex_invariance_witness :
    hexLoad (renderToks [HexTok.comment 59 [52], HexTok.ws 32,
        HexTok.pair 52 50, HexTok.pair 97 70] ++ 96 :: [55]) =
      some [66, 175] := by
  have h := (c1_hex_invariance
    [HexTok.comment 59 [52], HexTok.ws 32, HexTok.pair 52 50,
      HexTok.pair 97 70] [55] (by decide) (by decide)).1
  rw [h]
  decide

/-- C1 counterexample: on the input "4 2" the loader stores nothing — the
space between the two digits makes the loader discard the '4', and the '2'
is then discarded at end of input — while the claimed pipeline decodes the
byte 0x42. -/
theorem c1_counterexample :
    hexLoad [52, 32, 50] ≠
      some (unhex (strip_comments_and_ws
        (prefix_until_sentinel [52, 32, 50]))) ∧
    hexLoad [52, 32, 50] = some [] ∧
    unhex (strip_comments_and_ws (prefix_until_sentinel [52, 32, 50])) =
      [66] := by
  refine ⟨?_, by decide, by decide⟩
  decide

/-! ## C3: compile errors and exit status -/

/-- C3 counterexample: `FAIL` does write the diagnostic ERR plus newline,
but it terminates through BYE, whose code is `mov x0, #0; svc SYS_exit` —
the exit status is 0, not nonzero, so status 0 does not single out a clean
EOF. -/
theorem c3_counterexample :
    failRun.2 = 0 ∧ ¬ failRun.2 ≠ 0 := by
  exact ⟨rfl, by simp [failRun, byeExitCode]⟩

/-- C3 (amended): every compile error goes through FAIL, which EMITs the
three bytes "ERR" plus a newline to stdout and terminates the process via
BYE; BYE always exits with status 0, so the exit status is 0 on clean EOF
and on fatal error alike. -/
theorem c3_err_diagnostic :
    failRun.1 = [69, 82, 82, 10] ∧ failRun.2 = byeExitCode ∧
    byeExitCode = 0 ∧ ccEofExitCode = 0 := by
  refine ⟨?_, rfl, rfl, rfl⟩
  decide

/-! ## C4: unknown words continue in both states -/

/-- C4 counterexample: in Compile state the unknown token "foo" (not a
dictionary word, not a number in base 10) is not fatal — `word_not_found`
writes "?\n" and branches straight back to `quit_loop`, the very same
outcome as in Interpret state. -/
theorem c4_counterexample :
    quitStep [] 10 .compile [102, 111, 111] = .diagContinue [63, 10] ∧
    quitStep [] 10 .compile [102, 111, 111] =
      quitStep [] 10 .interpret [102, 111, 111] := by
  exact ⟨by decide, by decide⟩

/-- C4 (amended): a token that is neither a dictionary word nor a parseable
number makes the VM emit the two-byte diagnostic "?\n" and continue with
the next word — in Compile state exactly as in Interpret state; it is never
fatal. -/
theorem c4_unknown_word (d : List Entry) (base : Nat) (st : VMState)
    (w : List Nat) (hf : findWord d w = none)
    (hp : parseNumber w base = none) :
    quitStep d base st w = .diagContinue [63, 10] := by
  unfold quitStep
  rw [hf, hp]

/-- C4 witness: the unknown token "bar" in Compile state with an empty
dictionary. -/
theorem c4_unknown_word_witness :
    quitStep [] 10 .compile [98, 97, 114] = .diagContinue [63, 10] :=
  c4_unknown_word [] 10 .compile [98, 97, 114] (by decide) (by decide)

/-! ## C5: number parsing -/

theorem parseDigits_eq_clean (w : List Nat) : ∀ base acc,
    parseDigits w base acc = cleanDigits w base acc := by
  induction w with
  | nil => intro base acc; rfl
  | cons c r ih =>
      intro base acc
      by_cases h1 : digitVal c < 0
      · have hok : cleanDigitOk base c = false := by
          unfold cleanDigitOk
          simp only [Bool.and_eq_false_iff, decide_eq_false_iff_not, not_le]
          left; exact h1
        rw [show parseDigits (c :: r) base acc = none by
              unfold parseDigits; rw [if_pos h1]]
        unfold cleanDigits
        rw [if_neg (by simp [List.all_cons, hok])]
      · by_cases h2 : (base : Int) ≤ digitVal c
        · have hok : cleanDigitOk base c = false := by
            unfold cleanDigitOk
            simp only [Bool.and_eq_false_iff, decide_eq_false_iff_not, not_lt]
            right; exact h2
          rw [show parseDigits (c :: r) base acc = none by
                unfold parseDigits; rw [if_neg h1, if_pos h2]]
          unfold cleanDigits
          rw [if_neg (by simp [List.all_cons, hok])]
        · have hok : cleanDigitOk base c = true := by
            unfold cleanDigitOk
            simp only [Bool.and_eq_true, decide_eq_true_eq]
            omega
          have hstep : parseDigits (c :: r) base acc =
              parseDigits r base ((acc * base + (digitVal c).toNat) % CELLMOD) := by
            conv_lhs => unfold parseDigits
            rw [if_neg h1, if_neg h2]
          rw [hstep, ih base ((acc * base + (digitVal c).toNat) % CELLMOD)]
          unfold cleanDigits
          by_cases hall : r.all (cleanDigitOk base) = true
          · rw [if_pos hall, if_pos (by simp [List.all_cons, hok, hall])]
            rfl
          · rw [if_neg hall,
              if_neg (by simp [List.all_cons, hok]; simpa using hall)]

/-- C5 (amended): `parse_number` recognises no base prefixes — a dollar
sign, hash or percent aborts the parse like any other non-digit.  It
accepts an optional leading '-' sign; every remaining character must have a
`digitVal` in [0, BASE): 0-9 through the numeric branch and letters of
either case through the OR-0x20 branch (which also lets '@' and the
grave accent through as the digit 9); the value is the base-BASE fold of
the digit values, wrapped to 64 bits, negated by two's complement when the
sign was present. -/
theorem c5_parse_number (w : List Nat) (base : Nat) :
    parseNumber w base = cleanParseNumber w base := by
  cases w with
  | nil => rfl
  | cons c rest =>
      simp only [parseNumber, cleanParseNumber]
      by_cases hc : c = 45
      · rw [if_pos hc, if_pos hc]
        by_cases hr : rest = []
        · rw [if_pos hr, if_pos hr]
        · rw [if_neg hr, if_neg hr, parseDigits_eq_clean]
      · rw [if_neg hc, if_neg hc, parseDigits_eq_clean]

/-- C5 counterexample: parse_number rejects "$10" outright (the claimed
hex prefix does not exist), while the claim-side parser reads 16; and the
non-digit '@' parses as the digit 9 instead of failing. -/
theorem c5_counterexample :
    parseNumber [36, 49, 48] 10 = none ∧
    claimParseNumber [36, 49, 48] 10 = some 16 ∧
    parseNumber [64] 10 = some 9 := by
  refine ⟨by decide, by decide, by decide⟩

/-! ## C6: symbol lookup order -/

theorem symFindFrom_ge (tab : List SymRec) (nm : List Nat) :
    ∀ k : Nat, symFindFrom tab k nm = -1 ∨
      (k : Int) ≤ symFindFrom tab k nm := by
  induction tab with
  | nil => intro k; left; rfl
  | cons r rest ih =>
      intro k
      unfold symFindFrom
      by_cases hr : r.name = nm
      · right; rw [if_pos hr]
      · rw [if_neg hr]
        rcases ih (k + 1) with h | h
        · left; exact h
        · right
          have : ((k : Int) + 1) ≤ symFindFrom rest (k + 1) nm := by
            simpa using h
          omega

theorem symFindFrom_none (tab : List SymRec) (nm : List Nat) :
    ∀ k, symFindFrom tab k nm = -1 → ∀ r ∈ tab, r.name ≠ nm := by
  induction tab with
  | nil => simp
  | cons r rest ih =>
      intro k h s hs
      unfold symFindFrom at h
      by_cases hr : r.name = nm
      · rw [if_pos hr] at h
        exact absurd h (by omega)
      · rw [if_neg hr] at h
        rcases List.mem_cons.mp hs with hs | hs
        · subst hs; exact hr
        · exact ih (k + 1) h s hs

theorem symFindFrom_found (tab : List SymRec) (nm : List Nat) :
    ∀ k i : Nat, symFindFrom tab k nm = ((k + i : Nat) : Int) →
      ∃ r, tab[i]? = some r ∧ r.name = nm ∧
        ∀ j s, j < i → tab[j]? = some s → s.name ≠ nm := by
  induction tab with
  | nil =>
      intro k i h
      exact absurd h (by unfold symFindFrom; omega)
  | cons r rest ih =>
      intro k i h
      unfold symFindFrom at h
      by_cases hr : r.name = nm
      · rw [if_pos hr] at h
        have hi : i = 0 := by omega
        subst hi
        exact ⟨r, by simp, hr, fun j s hj _ => absurd hj (by omega)⟩
      · rw [if_neg hr] at h
        have hge := symFindFrom_ge rest nm (k + 1)
        have hipos : 1 ≤ i := by
          rcases hge with hg | hg
          · rw [hg] at h; exact absurd h (by omega)
          · rw [h] at hg; omega
        have h' : symFindFrom rest (k + 1) nm = (((k + 1) + (i - 1) : Nat) : Int) := by
          rw [h]; congr 1; omega
        obtain ⟨s, hs1, hs2, hs3⟩ := ih (k + 1) (i - 1) h'
        refine ⟨s, ?_, hs2, ?_⟩
        · rw [show i = (i - 1) + 1 by omega]
          simpa using hs1
        · intro j t hj ht
          cases j with
          | zero =>
              simp only [List.getElem?_cons_zero, Option.some_inj] at ht
              subst ht; exact hr
          | succ j' =>
              simp only [List.getElem?_cons_succ] at ht
              exact hs3 j' t (by omega) ht

/-- C6 (amended): SYM-FIND scans from index 0 upward, so when a name is
declared more than once the EARLIEST declaration wins: a found index is the
least matching index (every smaller index mismatches); -1 means no record
matches, and PRIMARY then treats the variable reference as a fatal compile
error (FAIL). -/
theorem c6_symbol_lookup (tab : List SymRec) (nm : List Nat) :
    (∀ i : Nat, symFind tab nm = (i : Int) →
      ∃ r, tab[i]? = some r ∧ r.name = nm ∧
        ∀ j s, j < i → tab[j]? = some s → s.name ≠ nm) ∧
    (symFind tab nm = -1 →
      (∀ r ∈ tab, r.name ≠ nm) ∧ primaryVar tab nm = none) := by
  constructor
  · intro i h
    exact symFindFrom_found tab nm 0 i (by simpa using h)
  · intro h
    refine ⟨symFindFrom_none tab nm 0 h, ?_⟩
    unfold primaryVar
    rw [show symFind tab nm = -1 from h]
    rfl

/-- C6 witness: looking up the absent name "z" in a one-entry table is a
fatal error in PRIMARY. -/
theorem c6_symbol_lookup_witness :
    primaryVar [⟨8, 0, 0, [120]⟩] [122] = none :=
  ((c6_symbol_lookup [⟨8, 0, 0, [120]⟩] [122]).2 (by decide)).2

/-- C6 counterexample: with the name "x" declared twice (records 0 and 1),
SYM-FIND returns index 0 — the first declaration — while the claimed
last-declared-first rule would return index 1. -/
theorem c6_counterexample :
    symFind [⟨8, 0, 0, [120]⟩, ⟨16, 0, 0, [120]⟩] [120] = 0 ∧
    claimSymFind [⟨8, 0, 0, [120]⟩, ⟨16, 0, 0, [120]⟩] [120] = 1 ∧
    (0 : Int) ≠ 1 := by
  refine ⟨by decide, by decide, by decide⟩

/-! ## C8: colon definitions and visibility -/

theorem and_sixtyfour_eq_zero {n : Nat} (h : n < 64) : n &&& 64 = 0 := by
  interval_cases n <;> decide

theorem and_thirtyone_eq_self {n : Nat} (h : n < 32) : n &&& 31 = n := by
  interval_cases n <;> decide

/-- C8 counterexample: ':' on the name "SQ" creates an entry whose flags
byte is 2 — bit 0x40, the spec's HIDDEN bit, is clear — and `find_word`
already finds the word during its own definition, before ';' closes it. -/
theorem c8_counterexample :
    ((doColon [] [83, 81]).1.head?.map (fun e => e.flags &&& 64) = some 0) ∧
    findWord (doColon [] [83, 81]).1 [83, 81] ≠ none ∧
    (doColon [] [83, 81]).2 = .compile := by
  refine ⟨by decide, by decide, by decide⟩

/-- C8 (amended): ':' creates a VISIBLE entry — its flags byte is just the
name length, so for real names (at most 31 bytes) the would-be HIDDEN bit
0x40 is clear — makes it LATEST at once, so lookup finds the word already
during its own definition, and enters Compile state; ';' compiles one EXIT
cell into the definition and returns to Interpret state, leaving the flags
byte untouched. -/
theorem c8_colon_semicolon (d : List Entry) (nm : List Nat)
    (hlen : nm.length < 32) :
    (doColon d nm).1 = (⟨nm.length % 256, nm, []⟩ : Entry) :: d ∧
    (nm.length % 256) &&& 64 = 0 ∧
    findWord (doColon d nm).1 nm = some ⟨nm.length % 256, nm, []⟩ ∧
    (doColon d nm).2 = .compile ∧
    doSemicolon (doColon d nm).1 =
      ((⟨nm.length % 256, nm, [exitXt]⟩ : Entry) :: d, .interpret) := by
  have hmod : nm.length % 256 = nm.length := Nat.mod_eq_of_lt (by omega)
  refine ⟨rfl, ?_, ?_, rfl, rfl⟩
  · rw [hmod]
    exact and_sixtyfour_eq_zero (by omega)
  · show List.find? _ _ = _
    simp only [doColon]
    rw [List.find?_cons_of_pos]
    unfold entryMatches
    simp only [Bool.and_eq_true, beq_iff_eq]
    constructor
    · show nm.length % 256 &&& F_LENMASK = nm.length
      rw [hmod, F_LENMASK]
      exact and_thirtyone_eq_self hlen
    · rw [List.take_length]

/-- C8 witness: defining "SQ" over an empty dictionary. -/
theorem c8_colon_semicolon_witness :
    (doColon [] [83, 81]).1 = (⟨2, [83, 81], []⟩ : Entry) :: [] ∧
    (2 : Nat) &&& 64 = 0 ∧
    findWord (doColon [] [83, 81]).1 [83, 81] = some ⟨2, [83, 81], []⟩ ∧
    (doColon [] [83, 81]).2 = .compile ∧
    doSemicolon (doColon [] [83, 81]).1 =
      ((⟨2, [83, 81], [exitXt]⟩ : Entry) :: [], .interpret) :=
  c8_colon_semicolon [] [83, 81] (by decide)

/-! ## C9: the comparison word `<` -/

theorem wsub_lt (a b : Nat) : wsub a b < CELLMOD := by
  unfold wsub
  exact Nat.mod_lt _ (by norm_num [CELLMOD])

/-- C9 (amended): on 64-bit cells, `<` always yields a canonical truth
value; it yields all-ones exactly when the WRAPPED two's-complement
difference a - b is negative, which agrees with the signed comparison
a < b exactly on pairs whose true difference fits in a signed 64-bit cell.
On overflow (see the counterexample) it answers wrongly. -/
theorem c9_less_sign (a b : Nat) (ha : a < CELLMOD) (hb : b < CELLMOD) :
    (forthLess a b = allOnes ∨ forthLess a b = 0) ∧
    (forthLess a b = allOnes ↔ toSigned (wsub a b) < 0) ∧
    ((-(CELLHALF : Int) ≤ toSigned a - toSigned b ∧
        toSigned a - toSigned b < (CELLHALF : Int)) →
      (forthLess a b = allOnes ↔ toSigned a < toSigned b)) := by
  have hm : wsub a b < CELLMOD := wsub_lt a b
  have hdiv : wsub a b / CELLHALF =
      if wsub a b < CELLHALF then 0 else 1 := by
    split
    · next h => exact Nat.div_eq_of_lt h
    · next h =>
        simp only [CELLMOD, CELLHALF] at hm h ⊢
        omega
  have hfl : forthLess a b = if wsub a b < CELLHALF then 0 else allOnes := by
    unfold forthLess
    rw [hdiv]
    split
    · decide
    · decide
  have hts : toSigned (wsub a b) < 0 ↔ ¬ wsub a b < CELLHALF := by
    unfold toSigned
    split
    · next h => simp only [h, not_true_eq_false, iff_false, not_lt]; omega
    · next h =>
        simp only [h, not_false_eq_true, iff_true]
        simp only [CELLMOD, CELLHALF] at hm h ⊢
        omega
  have hone : allOnes ≠ 0 := by decide
  have hiff : forthLess a b = allOnes ↔ toSigned (wsub a b) < 0 := by
    rw [hfl]
    by_cases h : wsub a b < CELLHALF
    · rw [if_pos h]
      simp only [hts, h, not_true_eq_false, iff_false]
      exact fun h0 => hone h0.symm
    · rw [if_neg h]
      simp only [hts, h, not_false_eq_true, iff_true]
  refine ⟨?_, hiff, ?_⟩
  · rw [hfl]; split
    · right; rfl
    · left; rfl
  · intro hrange
    obtain ⟨hlo, hhi⟩ := hrange
    have hkey : toSigned (wsub a b) = toSigned a - toSigned b := by
      unfold toSigned wsub at *
      simp only [CELLMOD, CELLHALF] at *
      split at hlo <;> split at hlo <;> omega
    rw [hiff, hkey]
    omega

/-- C9 witness: 3 < 5 yields the all-ones true cell. -/
theorem c9_less_sign_witness :
    forthLess 3 5 = allOnes ↔ toSigned 3 < toSigned 5 :=
  (c9_less_sign 3 5 (by decide) (by decide)).2.2 ⟨by decide, by decide⟩

/-- C9 counterexample: with a the most negative signed cell (2^63) and
b = 1, a is signed-less than b, but the wrapped difference 2^63 - 1 has a
clear top bit, so `<` answers the all-zeros false value. -/
theorem c9_counterexample :
    toSigned CELLHALF < toSigned 1 ∧ forthLess CELLHALF 1 = 0 ∧
    (0 : Nat) ≠ allOnes := by
  refine ⟨by decide, by decide, by decide⟩

/-! ## C10: UNGETC on a full buffer -/

/-- C10: when the two-slot unget buffer already holds two characters,
UNGETC leaves the buffer contents and the unget count unchanged, reports no
error, and leaves the pushed character cell behind on the parameter stack —
net stack effect +1 cell against the declared ( c -- ) — and the pushed
character is never returned by later GETCs, whose results all equal those
from the prior state. -/
theorem c10_ungetc_overflow (c : Int) (ps : List Int) (s : LexSt)
    (h : s.ungetCount = 2) :
    UNGETC c ps s = (c :: ps, s) ∧
    ∀ n, getcRun n (UNGETC c ps s).2 = getcRun n s := by
  have h0 : ¬ s.ungetCount = 0 := by omega
  have h1 : ¬ s.ungetCount = 1 := by omega
  have he : UNGETC c ps s = (c :: ps, s) := by
    unfold UNGETC
    rw [if_neg h0, if_neg h1]
  exact ⟨he, fun n => by rw [he]⟩

/-- C10 witness: buffer full with 1 and 2, pushing 65 on stack []. -/
theorem c10_ungetc_overflow_witness :
    UNGETC 65 [] ⟨2, 1, 2, [7]⟩ = ([65], ⟨2, 1, 2, [7]⟩) ∧
    getcRun 3 (UNGETC 65 [] ⟨2, 1, 2, [7]⟩).2 = getcRun 3 ⟨2, 1, 2, [7]⟩ :=
  ⟨(c10_ungetc_overflow 65 [] ⟨2, 1, 2, [7]⟩ rfl).1,
    (c10_ungetc_overflow 65 [] ⟨2, 1, 2, [7]⟩ rfl).2 3⟩

/-! ## C2: threaded-code round trip -/

theorem XTWf_docol {body : List XT} (h : XTWf (.docol body)) :
    ∃ bs, body = bs ++ [XT.exit] ∧ ∀ w ∈ bs, XTWf w := by
  cases h with
  | docol ws hws => exact ⟨ws, rfl, hws⟩

theorem XTWf_not_exit (h : XTWf .exit) : False := by
  cases h

theorem denoteList_append (a b : List XT) :
    ∀ ps, denoteList (a ++ b) ps = denoteList b (denoteList a ps) := by
  induction a with
  | nil => intro ps; rfl
  | cons w a ih =>
      intro ps
      simp only [List.cons_append, denoteList]
      exact ih _

theorem runThread_mono (f : Nat) : ∀ f' ip rs ps r, f ≤ f' →
    runThread f ip rs ps = some r → runThread f' ip rs ps = some r := by
  induction f with
  | zero =>
      intro f' ip rs ps r _ h
      exact absurd h (by simp [runThread])
  | succ f ih =>
      intro f' ip rs ps r hle h
      obtain ⟨f'', rfl⟩ : ∃ f'', f' = f'' + 1 := ⟨f' - 1, by omega⟩
      cases ip with
      | nil => exact absurd h (by simp [runThread])
      | cons w rest =>
          cases w with
          | exit =>
              cases rs with
              | nil => simpa [runThread] using h
              | cons t rs' =>
                  simp only [runThread] at h ⊢
                  exact ih f'' t rs' ps r (by omega) h
          | prim g =>
              simp only [runThread] at h ⊢
              exact ih f'' rest rs (g ps) r (by omega) h
          | docol body =>
              simp only [runThread] at h ⊢
              exact ih f'' body (rest :: rs) ps r (by omega) h

theorem runWord_mono {f f' : Nat} {w ps r} (hle : f ≤ f')
    (h : runWord f w ps = some r) : runWord f' w ps = some r := by
  cases w with
  | exit => exact h
  | prim g => exact h
  | docol body => exact runThread_mono f f' body [] ps r hle h

theorem interpSeq_mono {f f' : Nat} (hle : f ≤ f') :
    ∀ ws ps r, interpSeq f ws ps = some r → interpSeq f' ws ps = some r := by
  intro ws
  induction ws with
  | nil => intro ps r h; exact h
  | cons w ws ih =>
      intro ps r h
      simp only [interpSeq] at h ⊢
      cases hw : runWord f w ps with
      | none => rw [hw] at h; exact absurd h (by simp)
      | some ps' =>
          rw [hw] at h
          rw [runWord_mono hle hw]
          exact ih ps' r h

theorem sizeList_append (a b : List XT) :
    sizeList (a ++ b) = sizeList a + sizeList b := by
  induction a with
  | nil => simp [sizeList]
  | cons w a ih =>
      show XT.size w + sizeList (a ++ b) = (XT.size w + sizeList a) + sizeList b
      rw [ih]
      omega

theorem runThread_seq (n : Nat) : ∀ ws : List XT, sizeList ws = n →
    (∀ w ∈ ws, XTWf w) → ∀ cont rs ps r,
      (∃ f, runThread f cont rs (denoteList ws ps) = some r) →
      ∃ f, runThread f (ws ++ cont) rs ps = some r := by
  induction n using Nat.strong_induction_on with
  | _ n ih =>
      intro ws hsz hwf cont rs ps r hgiven
      cases ws with
      | nil => simpa [denoteList] using hgiven
      | cons w ws' =>
          cases w with
          | exit => exact absurd (hwf .exit (by simp)) XTWf_not_exit
          | prim g =>
              have hsz' : sizeList ws' < n := by
                subst hsz
                simp only [sizeList, XT.size]
                omega
              have hwf' : ∀ x ∈ ws', XTWf x := fun x hx => hwf x (by simp [hx])
              have hden : denoteList (XT.prim g :: ws') ps =
                  denoteList ws' (g ps) := rfl
              rw [hden] at hgiven
              obtain ⟨f, hf⟩ :=
                ih (sizeList ws') hsz' ws' rfl hwf' cont rs (g ps) r hgiven
              exact ⟨f + 1, by simpa [runThread] using hf⟩
          | docol body =>
              obtain ⟨bs, rfl, hbs⟩ := XTWf_docol (hwf (XT.docol body) (by simp))
              have hwf' : ∀ x ∈ ws', XTWf x := fun x hx => hwf x (by simp [hx])
              have hax := sizeList_append bs [XT.exit]
              have hone : sizeList [XT.exit] = 1 := rfl
              have hszbs : sizeList bs < n := by
                subst hsz
                simp only [sizeList, XT.size]
                omega
              have hszws' : sizeList ws' < n := by
                subst hsz
                simp only [sizeList, XT.size]
                omega
              have hden : denoteList (XT.docol (bs ++ [XT.exit]) :: ws') ps =
                  denoteList ws' (denoteList bs ps) := by
                show denoteList ws' (denoteWord (XT.docol (bs ++ [XT.exit])) ps) =
                  denoteList ws' (denoteList bs ps)
                rw [show denoteWord (XT.docol (bs ++ [XT.exit])) ps =
                    denoteList bs ps by
                  show denoteList (bs ++ [XT.exit]) ps = denoteList bs ps
                  rw [denoteList_append]
                  rfl]
              rw [hden] at hgiven
              obtain ⟨f1, hf1⟩ :=
                ih (sizeList ws') hszws' ws' rfl hwf' cont rs
                  (denoteList bs ps) r hgiven
              have hstep : ∃ f, runThread f [XT.exit] ((ws' ++ cont) :: rs)
                  (denoteList bs ps) = some r :=
                ⟨f1 + 1, by simpa [runThread] using hf1⟩
              obtain ⟨f2, hf2⟩ :=
                ih (sizeList bs) hszbs bs rfl hbs [XT.exit]
                  ((ws' ++ cont) :: rs) ps r hstep
              exact ⟨f2 + 1, by simpa [runThread] using hf2⟩

theorem runWord_complete (w : XT) (hw : XTWf w) (ps : List Int) :
    ∃ f, runWord f w ps = some (denoteWord w ps) := by
  cases w with
  | exit => exact absurd hw XTWf_not_exit
  | prim g => exact ⟨0, rfl⟩
  | docol body =>
      obtain ⟨bs, rfl, hbs⟩ := XTWf_docol hw
      have hden : denoteWord (XT.docol (bs ++ [XT.exit])) ps =
          denoteList bs ps := by
        show denoteList (bs ++ [XT.exit]) ps = denoteList bs ps
        rw [denoteList_append]
        rfl
      rw [hden]
      have hstep : ∃ f, runThread f [XT.exit] [] (denoteList bs ps) =
          some (denoteList bs ps) := ⟨1, rfl⟩
      obtain ⟨f, hf⟩ :=
        runThread_seq (sizeList bs) bs rfl hbs [XT.exit] [] ps
          (denoteList bs ps) hstep
      exact ⟨f, hf⟩

theorem interpSeq_complete (ws : List XT) (h : ∀ w ∈ ws, XTWf w)
    (ps : List Int) :
    ∃ f, interpSeq f ws ps = some (denoteList ws ps) := by
  induction ws generalizing ps with
  | nil => exact ⟨0, rfl⟩
  | cons w ws' ih =>
      obtain ⟨f1, hf1⟩ := runWord_complete w (h w (by simp)) ps
      obtain ⟨f2, hf2⟩ := ih (fun x hx => h x (by simp [hx])) (denoteWord w ps)
      refine ⟨max f1 f2, ?_⟩
      simp only [interpSeq]
      rw [runWord_mono (Nat.le_max_left f1 f2) hf1]
      exact interpSeq_mono (Nat.le_max_right f1 f2) ws' (denoteWord w ps) _ hf2

theorem runThread_sound (f : Nat) : ∀ ws rs ps r, (∀ w ∈ ws, XTWf w) →
    (∀ t ∈ rs, ThreadWf t) →
    runThread f (ws ++ [XT.exit]) rs ps = some r →
    r = denoteStack rs (denoteList ws ps) := by
  induction f with
  | zero => intro ws rs ps r _ _ h; exact absurd h (by simp [runThread])
  | succ f ih =>
      intro ws rs ps r hws hrs h
      cases ws with
      | nil =>
          cases rs with
          | nil =>
              simp only [List.nil_append, runThread, Option.some_inj] at h
              simp [denoteStack, denoteList, h]
          | cons t rs' =>
              simp only [List.nil_append, runThread] at h
              obtain ⟨ws', rfl, hws'⟩ := hrs t (by simp)
              have hrs' : ∀ x ∈ rs', ThreadWf x := fun x hx => hrs x (by simp [hx])
              have := ih ws' rs' ps r hws' hrs' h
              rw [this]
              show denoteStack rs' (denoteList ws' ps) =
                denoteStack ((ws' ++ [XT.exit]) :: rs') (denoteList [] ps)
              simp only [denoteStack, denoteList, denoteList_append]
              rfl
      | cons w ws' =>
          have hws' : ∀ x ∈ ws', XTWf x := fun x hx => hws x (by simp [hx])
          cases w with
          | exit => exact absurd (hws .exit (by simp)) XTWf_not_exit
          | prim g =>
              simp only [List.cons_append, runThread] at h
              have := ih ws' rs (g ps) r hws' hrs h
              rw [this]
              rfl
          | docol body =>
              obtain ⟨bs, rfl, hbs⟩ := XTWf_docol (hws (XT.docol body) (by simp))
              simp only [List.cons_append, runThread] at h
              have hfr : ∀ t ∈ (ws' ++ [XT.exit]) :: rs, ThreadWf t := by
                intro t ht
                rcases List.mem_cons.mp ht with ht | ht
                · exact ht ▸ ⟨ws', rfl, hws'⟩
                · exact hrs t ht
              have := ih bs ((ws' ++ [XT.exit]) :: rs) ps r hbs hfr h
              rw [this]
              show denoteStack rs (denoteList (ws' ++ [XT.exit]) (denoteList bs ps)) =
                denoteStack rs (denoteList ws' (denoteWord (XT.docol (bs ++ [XT.exit])) ps))
              rw [denoteList_append]
              show denoteStack rs (denoteList [XT.exit] (denoteList ws' (denoteList bs ps))) =
                denoteStack rs (denoteList ws' (denoteList (bs ++ [XT.exit]) ps))
              rw [denoteList_append]
              rfl

theorem runWord_sound {f : Nat} {w : XT} (hw : XTWf w) {ps r : List Int}
    (h : runWord f w ps = some r) : r = denoteWord w ps := by
  cases w with
  | exit => exact absurd hw XTWf_not_exit
  | prim g =>
      simp only [runWord, Option.some_inj] at h
      exact h.symm
  | docol body =>
      obtain ⟨bs, rfl, hbs⟩ := XTWf_docol hw
      have := runThread_sound f bs [] ps r hbs (by simp [ThreadWf]) h
      rw [this]
      show denoteStack [] (denoteList bs ps) =
        denoteWord (XT.docol (bs ++ [XT.exit])) ps
      show denoteList bs ps = denoteList (bs ++ [XT.exit]) ps
      rw [denoteList_append]
      rfl

theorem interpSeq_sound {f : Nat} : ∀ {ws : List XT}, (∀ w ∈ ws, XTWf w) →
    ∀ {ps r : List Int}, interpSeq f ws ps = some r →
    r = denoteList ws ps := by
  intro ws
  induction ws with
  | nil =>
      intro _ ps r h
      simp only [interpSeq, Option.some_inj] at h
      exact h.symm
  | cons w ws' ih =>
      intro hwf ps r h
      simp only [interpSeq] at h
      cases hw : runWord f w ps with
      | none => rw [hw] at h; exact absurd h (by simp)
      | some ps' =>
          rw [hw] at h
          have h1 : ps' = denoteWord w ps := runWord_sound (hwf w (by simp)) hw
          have h2 := ih (fun x hx => hwf x (by simp [hx])) h
          rw [h2, h1]
          rfl

/-- C2: a colon definition `: name w1 ... wn ;` — whose compiled thread is
the tokens of w1 ... wn followed by the EXIT that `;` compiles — followed by
interpreting `name`, produces the same net effect on the parameter stack as
interpreting w1 ... wn directly, for any well-formed non-IMMEDIATE words
(primitives as stack functions, or colon words of the same shape) that do
not alter the dictionary: the threaded execution through DOCOL, NEXT and
EXIT yields a final stack exactly when direct interpretation does, and the
stacks agree. -/
theorem c2_colon_roundtrip (ws : List XT) (h : ∀ w ∈ ws, XTWf w)
    (ps r : List Int) :
    (∃ f, interpSeq f ws ps = some r) ↔
      (∃ f, runWord f (.docol (ws ++ [.exit])) ps = some r) := by
  have hname : XTWf (.docol (ws ++ [.exit])) := XTWf.docol ws h
  have hden : denoteWord (XT.docol (ws ++ [XT.exit])) ps = denoteList ws ps := by
    show denoteList (ws ++ [XT.exit]) ps = denoteList ws ps
    rw [denoteList_append]
    rfl
  constructor
  · intro hex
    obtain ⟨f, hf⟩ := hex
    have hr : r = denoteList ws ps := interpSeq_sound h hf
    obtain ⟨f', hf'⟩ := runWord_complete (.docol (ws ++ [.exit])) hname ps
    rw [hden] at hf'
    exact ⟨f', by rw [hr]; exact hf'⟩
  · intro hex
    obtain ⟨f, hf⟩ := hex
    have hr : r = denoteList ws ps := by
      have := runWord_sound hname hf
      rw [this, hden]
    obtain ⟨f', hf'⟩ := interpSeq_complete ws h ps
    exact ⟨f', by rw [hr]; exact hf'⟩

/-- C2 witness: `: SQ DUP * ;` then `7 SQ` leaves 49, exactly as typing
`DUP *` directly. -/
theorem c2_colon_roundtrip_witness :
    (∃ f, interpSeq f [XT.prim primDUP, XT.prim primSTAR] [7] = some [49]) ↔
      (∃ f, runWord f
        (.docol ([XT.prim primDUP, XT.prim primSTAR] ++ [.exit])) [7] =
          some [49]) :=
  c2_colon_roundtrip [XT.prim primDUP, XT.prim primSTAR]
    (by
      intro w hw
      rcases List.mem_cons.mp hw with h1 | h1
      · exact h1 ▸ XTWf.prim primDUP
      · rcases List.mem_cons.mp h1 with h2 | h2
        · exact h2 ▸ XTWf.prim primSTAR
        · exact absurd h2 (List.not_mem_nil w))
    [7] [49]

/-! ## C7: FOR-statement lowering -/

theorem optBind_congr {α β : Type} (o : Option α) (f g : α → Option β)
    (h : ∀ a, f a = g a) : o.bind f = o.bind g := by
  cases o with
  | none => rfl
  | some a => exact h a

theorem bufferLoop_nil_none (k : Nat) : ∀ cur tbuf, cur.kind ≠ 41 →
    40 ≤ tbuf.length + k → bufferLoop [] cur tbuf = none := by
  induction k with
  | zero =>
      intro cur tbuf h41 hlen
      unfold bufferLoop
      rw [if_neg h41, if_pos (by omega)]
  | succ k ih =>
      intro cur tbuf h41 hlen
      unfold bufferLoop
      rw [if_neg h41]
      by_cases hov : 40 ≤ tbuf.length
      · rw [if_pos hov]
      · rw [if_neg hov]
        exact ih (zeroTok cur) (tbuf ++ [cur]) (by simp [zeroTok])
          (by simp only [List.length_append, List.length_cons,
            List.length_nil]; omega)

theorem bufferLoop_eq : ∀ (input : List TokRec) (cur : TokRec)
    (tbuf : List TokRec), tbuf.length ≤ 40 →
    bufferLoop input cur tbuf =
      (match (cur :: input).dropWhile (fun t => t.kind ≠ 41) with
      | [] => none
      | c :: rest =>
          if tbuf.length +
              ((cur :: input).takeWhile (fun t => t.kind ≠ 41)).length ≤ 40
          then some (tbuf ++ (cur :: input).takeWhile (fun t => t.kind ≠ 41),
            c, rest)
          else none) := by
  intro input
  induction input with
  | nil =>
      intro cur tbuf htb
      by_cases h41 : cur.kind = 41
      · rw [show bufferLoop [] cur tbuf = some (tbuf, cur, []) by
          unfold bufferLoop; rw [if_pos h41]]
        rw [List.dropWhile_cons_of_neg (by simp [h41]),
          List.takeWhile_cons_of_neg (by simp [h41])]
        simp [htb]
      · rw [bufferLoop_nil_none 40 cur tbuf h41 (by omega)]
        rw [List.dropWhile_cons_of_pos (by simp [h41])]
        rfl
  | cons t rest ih =>
      intro cur tbuf htb
      by_cases h41 : cur.kind = 41
      · rw [show bufferLoop (t :: rest) cur tbuf = some (tbuf, cur, t :: rest) by
          unfold bufferLoop; rw [if_pos h41]]
        rw [List.dropWhile_cons_of_neg (by simp [h41]),
          List.takeWhile_cons_of_neg (by simp [h41])]
        simp [htb]
      · by_cases hov : 40 ≤ tbuf.length
        · rw [show bufferLoop (t :: rest) cur tbuf = none by
            conv_lhs => unfold bufferLoop
            rw [if_neg h41, if_pos hov]]
          rw [List.dropWhile_cons_of_pos (by simp [h41]),
            List.takeWhile_cons_of_pos (by simp [h41])]
          cases hd : (t :: rest).dropWhile (fun x => x.kind ≠ 41) with
          | nil => rfl
          | cons c rest' =>
              exact (if_neg (by simp only [List.length_cons]; omega)).symm
        · rw [show bufferLoop (t :: rest) cur tbuf =
              bufferLoop rest t (tbuf ++ [cur]) by
            conv_lhs => unfold bufferLoop
            rw [if_neg h41, if_neg hov]]
          rw [List.dropWhile_cons_of_pos (by simp [h41]),
            List.takeWhile_cons_of_pos (by simp [h41])]
          rw [ih t (tbuf ++ [cur]) (by
            simp only [List.length_append, List.length_cons, List.length_nil]
            omega)]
          cases hd : (t :: rest).dropWhile (fun x => x.kind ≠ 41) with
          | nil => rfl
          | cons c rest' =>
              refine if_congr ?_ ?_ rfl
              · simp only [List.length_append, List.length_cons,
                  List.length_nil]
                omega
              · simp

theorem bufferLoop_spec (cur : TokRec) (input : List TokRec) :
    bufferLoop input cur [] = specBuffer cur input := by
  rw [bufferLoop_eq input cur [] (by simp)]
  unfold specBuffer
  cases hd : (cur :: input).dropWhile (fun t => t.kind ≠ 41) with
  | nil => rfl
  | cons c rest => simp

/-- C7 (amended): lowering `for (init; cond; update) body` allocates two
fresh labels top and end (consecutive counter values) and emits, in order:
the init expression if present, the top label, the condition (or a load of
constant 1 when absent), and a compare-branch-if-zero to end; it then
buffers the tokens of the update clause up to the FIRST closing-parenthesis
token — nested parentheses are NOT matched — into the bounded token buffer
(capacity exactly 40 records, overflow a fatal compile error, and a missing
closing parenthesis also fatal through buffer overflow), parses the body,
re-parses the then-current buffer contents in Replay mode as one expression
whose value is discarded exactly when that buffer is non-empty, and finally
emits an unconditional branch to top followed by the end label.  Stated as:
the source's FOR-STMT equals the claim-side phase-by-phase lowering
`forStmtSpec`, whose buffering is takeWhile up to the first token of kind
41, for every expression compiler, statement compiler and start state. -/
theorem c7_for_lowering (exprC : ExprC) (stmtC : StmtC) (st : CState) :
    forStmt exprC stmtC st = forStmtSpec exprC stmtC st := by
  unfold forStmt forStmtSpec
  simp only [tbufReset, bufferLoop_spec]
  rfl

/-- C7 counterexample: for the update clause `i=(i+1)` followed by the
for-header's closing parenthesis, the buffering loop of FOR-STMT stops at
the FIRST closing-parenthesis token: it buffers `i = ( i + 1` and leaves
the outer `)` in the stream, whereas buffering up to the MATCHING closing
parenthesis, as the claim states, would buffer `i = ( i + 1 )`. -/
theorem c7_counterexample :
    bufferLoop [⟨61, 0, 0, []⟩, ⟨40, 0, 0, []⟩, ⟨256, 0, 1, [105]⟩,
        ⟨43, 0, 0, []⟩, ⟨257, 1, 0, []⟩, ⟨41, 0, 0, []⟩, ⟨41, 0, 0, []⟩]
        ⟨256, 0, 1, [105]⟩ [] =
      some ([⟨256, 0, 1, [105]⟩, ⟨61, 0, 0, []⟩, ⟨40, 0, 0, []⟩,
        ⟨256, 0, 1, [105]⟩, ⟨43, 0, 0, []⟩, ⟨257, 1, 0, []⟩],
        ⟨41, 0, 0, []⟩, [⟨41, 0, 0, []⟩]) ∧
    matchedUpdate (⟨256, 0, 1, [105]⟩ :: [⟨61, 0, 0, []⟩, ⟨40, 0, 0, []⟩,
        ⟨256, 0, 1, [105]⟩, ⟨43, 0, 0, []⟩, ⟨257, 1, 0, []⟩, ⟨41, 0, 0, []⟩,
        ⟨41, 0, 0, []⟩]) 0 [] =
      some ([⟨256, 0, 1, [105]⟩, ⟨61, 0, 0, []⟩, ⟨40, 0, 0, []⟩,
        ⟨256, 0, 1, [105]⟩, ⟨43, 0, 0, []⟩, ⟨257, 1, 0, []⟩,
        ⟨41, 0, 0, []⟩], []) ∧
    ([⟨256, 0, 1, [105]⟩, ⟨61, 0, 0, []⟩, ⟨40, 0, 0, []⟩,
        ⟨256, 0, 1, [105]⟩, ⟨43, 0, 0, []⟩, ⟨257, 1, 0, []⟩] :
          List TokRec) ≠
      [⟨256, 0, 1, [105]⟩, ⟨61, 0, 0, []⟩, ⟨40, 0, 0, []⟩,
        ⟨256, 0, 1, [105]⟩, ⟨43, 0, 0, []⟩, ⟨257, 1, 0, []⟩,
        ⟨41, 0, 0, []⟩] := by
  refine ⟨?_, by decide, by decide⟩
  rw [bufferLoop_eq _ _ _ (by decide)]
  decide

end SectorC
